import Mathlib

/-!
Verification of the streaming-sketch core of this repository against its
specification.  Python integers and floats are modelled as `ℤ`/`ℚ` (every
operation the claims exercise is exact in binary64), operations that can
raise (`ZeroDivisionError`, `ValueError`, `IndexError`) are `Option`- or
`Except`-valued, and external hash functions (`mmh3`, `sha256`) are
abstracted as function parameters.
-/

namespace Spec2Proof

/-! ### Count-Min Sketch (src/count_min_sketch.py) -/

/-- State of `CountMinSketch`: `width`, `depth` and the `depth × width`
counter table, kept as a total function whose entries outside the grid are
never touched.  The per-row `mmh3` hashes are abstracted as
`rawHash : row → key → ℕ`, reduced modulo `width` exactly as `_hashes`
does. -/
structure CMS where
  width : ℕ
  depth : ℕ
  tables : ℕ → ℕ → ℤ

/-- `CountMinSketch.__init__`: stores the dimensions and an all-zero
table.  It performs no validation, so construction always succeeds. -/
def CMS.init (w d : ℕ) : Except String CMS :=
  .ok ⟨w, d, fun _ _ => 0⟩

/-- The table update performed by `CountMinSketch.add`: each row
`i < depth` gets `count` added at cell `rawHash i key % width`. -/
def CMS.bump (rawHash : ℕ → ℕ → ℕ) (s : CMS) (key : ℕ) (c : ℤ) : ℕ → ℕ → ℤ :=
  fun i j =>
    if i < s.depth ∧ j = rawHash i key % s.width then s.tables i j + c
    else s.tables i j

/-- `CountMinSketch.add`: for each row `i < depth`, add `count` to cell
`rawHash i key % width`.  When `width = 0` the `%` in `_hashes` raises
`ZeroDivisionError` (`none`), except that with `depth = 0` the generator
is empty and nothing is evaluated. -/
def CMS.add (rawHash : ℕ → ℕ → ℕ) (s : CMS) (key : ℕ) (c : ℤ) : Option CMS :=
  if s.depth = 0 then some s
  else if s.width = 0 then none
  else some ⟨s.width, s.depth, CMS.bump rawHash s key c⟩

/-- `CountMinSketch.estimate`: minimum across the rows of the hashed cell.
`min()` of an empty generator (`depth = 0`) raises `ValueError`, and
`% 0` (`width = 0`, `depth ≠ 0`) raises `ZeroDivisionError`; both are
`none`. -/
def CMS.estimate (rawHash : ℕ → ℕ → ℕ) (s : CMS) (key : ℕ) : Option ℤ :=
  if s.depth ≠ 0 ∧ s.width = 0 then none
  else
    match (List.range s.depth).map (fun i => s.tables i (rawHash i key % s.width)) with
    | [] => none
    | v :: vs => some (vs.foldl min v)

/-- A finite history of `add(key, count)` calls, executed left to right. -/
def CMS.runAdds (rawHash : ℕ → ℕ → ℕ) (s : CMS) : List (ℕ × ℤ) → Option CMS
  | [] => some s
  | p :: rest =>
    match CMS.add rawHash s p.1 p.2 with
    | none => none
    | some s' => CMS.runAdds rawHash s' rest

/-- The true total count added for `key` by a history. -/
def trueCount (key : ℕ) (hist : List (ℕ × ℤ)) : ℤ :=
  ((hist.filter (fun p => decide (p.1 = key))).map Prod.snd).sum

theorem le_foldl_min {t v : ℤ} {l : List ℤ} (h : ∀ x ∈ v :: l, t ≤ x) :
    t ≤ l.foldl min v := by
  induction l generalizing v with
  | nil => exact h v (by simp)
  | cons a l ih =>
    simp only [List.foldl_cons]
    refine ih (fun x hx => ?_)
    rcases List.mem_cons.mp hx with hx | hx
    · subst hx
      exact le_min (h v (by simp)) (h a (by simp))
    · exact h x (by simp [hx])

theorem cms_runAdds_cell_ge (rawHash : ℕ → ℕ → ℕ) (key : ℕ) :
    ∀ (hist : List (ℕ × ℤ)) (s : CMS), 0 < s.width →
      (∀ p ∈ hist, 0 ≤ p.2) →
      ∃ s', CMS.runAdds rawHash s hist = some s' ∧
        s'.width = s.width ∧ s'.depth = s.depth ∧
        ∀ i < s.depth,
          s.tables i (rawHash i key % s.width) + trueCount key hist ≤
            s'.tables i (rawHash i key % s.width) := by
  intro hist
  induction hist with
  | nil =>
    intro s hw _
    exact ⟨s, rfl, rfl, rfl, fun i _ => by simp [trueCount]⟩
  | cons p rest ih =>
    intro s hw hnn
    by_cases hd : s.depth = 0
    · have hadd : CMS.add rawHash s p.1 p.2 = some s := by
        simp [CMS.add, hd]
      obtain ⟨s', hrun, hw', hd', _⟩ :=
        ih s hw (fun q hq => hnn q (List.mem_cons_of_mem _ hq))
      refine ⟨s', ?_, hw', hd', fun i hi => absurd hi (by omega)⟩
      simp [CMS.runAdds, hadd, hrun]
    · have hw0 : ¬ s.width = 0 := by omega
      set s₁ : CMS := ⟨s.width, s.depth, CMS.bump rawHash s p.1 p.2⟩ with hs₁
      have hadd : CMS.add rawHash s p.1 p.2 = some s₁ := by
        simp [CMS.add, hd, hw0, hs₁]
      obtain ⟨s', hrun, hw', hd', hcell⟩ :=
        ih s₁ (by simpa [hs₁] using hw) (fun q hq => hnn q (List.mem_cons_of_mem _ hq))
      refine ⟨s', ?_, by simpa [hs₁] using hw', by simpa [hs₁] using hd', ?_⟩

      · simp [CMS.runAdds, hadd, hrun]
      · intro i hi
        have hstep :
            s.tables i (rawHash i key % s.width) +
              (if p.1 = key then p.2 else 0) ≤
            s₁.tables i (rawHash i key % s.width) := by
          by_cases hpk : p.1 = key
          · subst hpk
            simp [hs₁, CMS.bump, hi]
          · have hp2 : 0 ≤ p.2 := hnn p (by simp)
            by_cases hcol : rawHash i key % s.width = rawHash i p.1 % s.width
            · simp [hs₁, CMS.bump, hi, hcol, hpk, hp2]
            · simp [hs₁, CMS.bump, hi, hcol, hpk]
        have htc : trueCount key (p :: rest) =
            (if p.1 = key then p.2 else 0) + trueCount key rest := by
          by_cases hpk : p.1 = key <;>
            simp [trueCount, List.filter_cons, hpk]
        have hrest := hcell i (by simpa [hs₁] using hi)
        have : s₁.tables i (rawHash i key % s.width) + trueCount key rest ≤
            s'.tables i (rawHash i key % s.width) := by
          simpa [hs₁] using hrest
        omega

/-- C1: for every key and every finite history of `add(key, count)` calls
with non-negative counts (on a sketch with positive width and depth),
`estimate(key)` succeeds and is at least the true total count added for
that key: the sketch never under-estimates. -/
theorem cms_estimate_ge_true_count (rawHash : ℕ → ℕ → ℕ) (w d : ℕ)
    (hist : List (ℕ × ℤ)) (key : ℕ) (hw : 0 < w) (hd : 0 < d)
    (hnn : ∀ p ∈ hist, 0 ≤ p.2) :
    ∃ s e, CMS.runAdds rawHash ⟨w, d, fun _ _ => 0⟩ hist = some s ∧
      CMS.estimate rawHash s key = some e ∧ trueCount key hist ≤ e := by
  obtain ⟨s, hrun, hw', hd', hcell⟩ :=
    cms_runAdds_cell_ge rawHash key hist ⟨w, d, fun _ _ => 0⟩ hw hnn
  have hw'' : s.width = w := hw'
  have hd'' : s.depth = d := hd'
  have hwpos : 0 < s.width := by omega
  have hdpos : 0 < s.depth := by omega
  have hne : (List.range s.depth).map
      (fun i => s.tables i (rawHash i key % s.width)) ≠ [] := by
    intro hcon
    have hlen := congrArg List.length hcon
    simp only [List.length_map, List.length_range, List.length_nil] at hlen
    omega
  obtain ⟨v, vs, hvvs⟩ := List.exists_cons_of_ne_nil hne
  refine ⟨s, vs.foldl min v, hrun, ?_, ?_⟩
  · simp only [CMS.estimate, hvvs]
    have : ¬ (s.depth ≠ 0 ∧ s.width = 0) := by omega
    simp [this]
  · refine le_foldl_min (fun x hx => ?_)
    rw [← hvvs] at hx
    obtain ⟨i, hi, hix⟩ := List.mem_map.mp hx
    have hid : i < s.depth := List.mem_range.mp hi
    have hcg := hcell i
      (by rw [show (⟨w, d, fun _ _ => 0⟩ : CMS).depth = d from rfl]; omega)
    rw [show (⟨w, d, fun _ _ => 0⟩ : CMS).width = w from rfl,
      show (⟨w, d, fun _ _ => 0⟩ : CMS).tables i (rawHash i key % w) = 0 from rfl,
      zero_add] at hcg
    rw [← hix, hw'']
    exact hcg

/-- Witness for C1 at a concrete input: width 3, depth 2, the raw hash
`i + 2 * key`, history `add 7 2; add 9 5; add 7 1`, queried at key 7. -/
theorem cms_estimate_ge_true_count_witness :
    (0 < 3 ∧ 0 < 2 ∧ ∀ p ∈ [((7 : ℕ), (2 : ℤ)), (9, 5), (7, 1)], 0 ≤ p.2) ∧
    ∃ s e, CMS.runAdds (fun i key => i + 2 * key)
        ⟨3, 2, fun _ _ => 0⟩ [(7, 2), (9, 5), (7, 1)] = some s ∧
      CMS.estimate (fun i key => i + 2 * key) s 7 = some e ∧
      trueCount 7 [(7, 2), (9, 5), (7, 1)] ≤ e :=
  ⟨⟨by decide, by decide, by decide⟩,
    cms_estimate_ge_true_count (fun i key => i + 2 * key) 3 2
      [(7, 2), (9, 5), (7, 1)] 7 (by decide) (by decide) (by decide)⟩

/-! ### DGIM windowed bit-counter (src/dgim.py)

A bucket is a pair (timestamp of rightmost 1, size); the bucket list is
kept newest-first. -/

/-- State of `DGIM`: the window length and the bucket list. -/
structure DGIM where
  window : ℤ
  buckets : List (ℤ × ℕ)

/-- `DGIM.__init__`. -/
def DGIM.init (w : ℤ) : DGIM := ⟨w, []⟩

/-- One merge of `add_bit`'s inner loop at index `i`: bucket `i`'s size is
added into bucket `i + 1` and bucket `i` is removed (the code's comment:
merge top two, `i + 1` into `i`). -/
def mergeStep (bs : List (ℤ × ℕ)) (i : ℕ) : List (ℤ × ℕ) :=
  match bs.get? i, bs.get? (i + 1) with
  | some a, some b => (bs.set (i + 1) (b.1, b.2 + a.2)).eraseIdx i
  | _, _ => bs

/-- The guard of `add_bit`'s inner loop: buckets `i`, `i+1`, `i+2` all
have the same size. -/
def sizesEq3 (bs : List (ℤ × ℕ)) (i : ℕ) : Bool :=
  match bs.get? i, bs.get? (i + 1), bs.get? (i + 2) with
  | some a, some b, some c => a.2 = b.2 ∧ b.2 = c.2
  | _, _, _ => false

/-- `add_bit`'s `while i + 2 < len(buckets)` loop.  Each iteration either
removes a bucket or advances `i`, so it runs at most `2 * length` times;
the callers pass fuel `2 * length + 2`, which is never exhausted. -/
def mergeLoop : ℕ → ℕ → List (ℤ × ℕ) → List (ℤ × ℕ)
  | 0, _, bs => bs
  | fuel + 1, i, bs =>
    if i + 2 < bs.length then
      if sizesEq3 bs i then mergeLoop fuel i (mergeStep bs i)
      else mergeLoop fuel (i + 1) bs
    else bs

/-- `DGIM.add_bit` with an explicit timestamp: on a 1 bit, prepend a
size-1 bucket and run the merge loop; then evict buckets with timestamp
below `ts - window`. -/
def DGIM.addBit (s : DGIM) (bit : Bool) (ts : ℤ) : DGIM :=
  let bs :=
    if bit then mergeLoop (2 * (s.buckets.length + 1) + 2) 0 ((ts, 1) :: s.buckets)
    else s.buckets
  ⟨s.window, bs.filter (fun b => ts - s.window ≤ b.1)⟩

/-- `DGIM.query`'s loop over the bucket list: `seen` records whether a
bucket inside the window has already been counted (`last_bucket` not
`None`); the first bucket strictly older than the cutoff stops the loop
and contributes half its size only when `seen` is false. -/
def queryLoop (cutoff : ℤ) : List (ℤ × ℕ) → Bool → ℕ → ℕ
  | [], _, total => total
  | b :: rest, seen, total =>
    if b.1 < cutoff then (if seen then total else total + b.2 / 2)
    else queryLoop cutoff rest true (total + b.2)

/-- `DGIM.query` with an explicit timestamp. -/
def DGIM.query (s : DGIM) (ts : ℤ) : ℕ :=
  queryLoop (ts - s.window) s.buckets false 0

/-- Feed a stream of 1 bits at the given timestamps. -/
def DGIM.addOnes (s : DGIM) (tss : List ℤ) : DGIM :=
  tss.foldl (fun st t => st.addBit true t) s

/-- C2 (code bug): after feeding 1 bits at timestamps 1..5 into a
window-100 counter, the bucket sizes are [1, 1, 2, 1]: three buckets of
size 1 coexist, so `add_bit` does not enforce the at-most-two-per-size
invariant.  The merge at timestamp 3 combined the two newest buckets of
the triple (keeping the middle timestamp) instead of the two oldest. -/
theorem dgim_three_buckets_of_size_one :
    ((DGIM.init 100).addOnes [1, 2, 3, 4, 5]).buckets =
      [(5, 1), (4, 1), (2, 2), (1, 1)] ∧
    (((DGIM.init 100).addOnes [1, 2, 3, 4, 5]).buckets.countP
      (fun b => b.2 = 1)) = 3 := by
  constructor <;> rfl

/-- C3 (counterexample): with window 2 and 1 bits at timestamps 1, 2, 3,
the buckets are [(2, 2), (1, 1)]; querying at timestamp 6, which is past
the last event's timestamp plus the window (3 + 2 = 5), returns 1, not 0
as the claim states (the loop adds half the newest bucket's size 2). -/
theorem dgim_query_past_window_not_zero :
    ((DGIM.init 2).addOnes [1, 2, 3]).query 6 = 1 ∧ (1 : ℕ) ≠ 0 :=
  ⟨rfl, one_ne_zero⟩

theorem queryLoop_seen (cutoff : ℤ) :
    ∀ (l : List (ℤ × ℕ)) (t : ℕ),
      queryLoop cutoff l true t =
        t + ((l.takeWhile (fun b => decide (cutoff ≤ b.1))).map
          (fun b => b.2)).sum := by
  intro l
  induction l with
  | nil => intro t; simp [queryLoop]
  | cons b rest ih =>
    intro t
    by_cases hb : b.1 < cutoff
    · have : ¬ cutoff ≤ b.1 := by omega
      simp [queryLoop, hb, List.takeWhile_cons, this]
    · have hcb : cutoff ≤ b.1 := by omega
      simp only [queryLoop, if_neg hb, ih, List.takeWhile_cons, decide_eq_true_eq,
        if_pos hcb, List.map_cons, List.sum_cons]
      omega

theorem filter_eq_takeWhile_of_sorted (cutoff : ℤ) :
    ∀ l : List (ℤ × ℕ), l.Pairwise (fun a b => b.1 ≤ a.1) →
      l.filter (fun b => decide (cutoff ≤ b.1)) =
        l.takeWhile (fun b => decide (cutoff ≤ b.1)) := by
  intro l
  induction l with
  | nil => intro _; rfl
  | cons b rest ih =>
    intro hp
    rcases List.pairwise_cons.mp hp with ⟨hall, hrest⟩
    by_cases hb : cutoff ≤ b.1
    · simp [List.filter_cons, List.takeWhile_cons, hb, ih hrest]
    · have hnil : rest.filter (fun x => decide (cutoff ≤ x.1)) = [] := by
        refine List.filter_eq_nil_iff.mpr (fun x hx => ?_)
        have := hall x hx
        simp only [decide_eq_true_eq]
        omega
      simp [List.filter_cons, List.takeWhile_cons, hb, hnil]

/-- C3 (amended): for a time-sorted (newest-first) bucket list,
`query(ts)` returns the sum of the full sizes of the buckets whose
timestamp is at least `ts - window`, and the half-size correction for the
newest expired bucket is added only when no bucket at all lies inside the
window; hence after advancing past the window the result is half (integer
floor) the newest bucket's size, not necessarily 0. -/
theorem dgim_query_characterization (s : DGIM) (ts : ℤ)
    (hsorted : s.buckets.Pairwise (fun a b => b.1 ≤ a.1)) :
    s.query ts =
      ((s.buckets.filter (fun b => decide (ts - s.window ≤ b.1))).map
        (fun b => b.2)).sum +
      (if s.buckets ≠ [] ∧ ∀ b ∈ s.buckets, b.1 < ts - s.window then
        (s.buckets.headD (0, 0)).2 / 2
      else 0) := by
  rcases hbs : s.buckets with _ | ⟨b, rest⟩
  · simp [DGIM.query, queryLoop, hbs]
  · rw [hbs] at hsorted
    rcases List.pairwise_cons.mp hsorted with ⟨hall, hrest⟩
    by_cases hb : b.1 < ts - s.window
    · have hallold : ∀ x ∈ b :: rest, x.1 < ts - s.window := by
        intro x hx
        rcases List.mem_cons.mp hx with hx | hx
        · subst hx; omega
        · have := hall x hx; omega
      have hnil : (b :: rest).filter (fun x => decide (ts - s.window ≤ x.1)) = [] := by
        refine List.filter_eq_nil_iff.mpr (fun x hx => ?_)
        simp only [decide_eq_true_eq]
        have := hallold x hx
        omega
      have hcond : ((b :: rest : List (ℤ × ℕ)) ≠ [] ∧
          ∀ x ∈ b :: rest, x.1 < ts - s.window) := ⟨by simp, hallold⟩
      simp only [DGIM.query, hbs]
      rw [show queryLoop (ts - s.window) (b :: rest) false 0 = 0 + b.2 / 2 from by
        simp [queryLoop, hb]]
      rw [hnil, if_pos hcond]
      simp
    · have hle : ts - s.window ≤ b.1 := by omega
      have hcond : ¬ (b :: rest ≠ [] ∧ ∀ x ∈ b :: rest, x.1 < ts - s.window) := by
        rintro ⟨-, hallx⟩
        exact absurd (hallx b (by simp)) (by omega)
      simp only [DGIM.query, hbs, queryLoop, if_neg hb, queryLoop_seen,
        filter_eq_takeWhile_of_sorted _ _ hrest, if_neg hcond,
        List.filter_cons, decide_eq_true_eq, if_pos hle, List.map_cons,
        List.sum_cons, add_zero, zero_add]

/-- Witness for C3's amended theorem at the concrete counterexample
state: buckets [(2, 2), (1, 1)], window 2, query timestamp 6. -/
theorem dgim_query_characterization_witness :
    ((DGIM.init 2).addOnes [1, 2, 3]).buckets.Pairwise (fun a b => b.1 ≤ a.1) ∧
    ((DGIM.init 2).addOnes [1, 2, 3]).query 6 =
      ((((DGIM.init 2).addOnes [1, 2, 3]).buckets.filter
        (fun b => decide (6 - ((DGIM.init 2).addOnes [1, 2, 3]).window ≤ b.1))).map
        (fun b => b.2)).sum +
      (if ((DGIM.init 2).addOnes [1, 2, 3]).buckets ≠ [] ∧
          ∀ b ∈ ((DGIM.init 2).addOnes [1, 2, 3]).buckets,
            b.1 < 6 - ((DGIM.init 2).addOnes [1, 2, 3]).window then
        (((DGIM.init 2).addOnes [1, 2, 3]).buckets.headD (0, 0)).2 / 2
      else 0) :=
  ⟨by decide, dgim_query_characterization ((DGIM.init 2).addOnes [1, 2, 3]) 6 (by decide)⟩

/-! ### Running moments (src/online_moments.py)

Python floats are modelled as `ℚ`: on the inputs the claims exercise
(small integers, exact cancellations) every binary64 operation is exact.
Python raises `ZeroDivisionError` on float division by zero, so division
is `Option`-valued where the code can divide by zero. -/

/-- Python float division: raises `ZeroDivisionError` (`none`) when the
divisor is zero. -/
def pydiv (a b : ℚ) : Option ℚ :=
  if b = 0 then none else some (a / b)

/-- Python float division over `ℝ`, for the one formula that also uses
`math.sqrt` and a fractional power. -/
noncomputable def pydivR (a b : ℝ) : Option ℝ :=
  if b = 0 then none else some (a / b)

/-- State of `RunningMoments`. -/
structure RunningMoments where
  n : ℕ
  mean : ℚ
  M2 : ℚ
  M3 : ℚ
  M4 : ℚ
deriving DecidableEq

/-- `RunningMoments.__init__`. -/
def RunningMoments.init : RunningMoments := ⟨0, 0, 0, 0, 0⟩

/-- `RunningMoments.update`: the single-pass Welford-style update.  The
Python code bumps `n` first and updates `M4`, `M3`, `M2` (in that order)
from the pre-update values of `M2` and `M3`. -/
def RunningMoments.update (s : RunningMoments) (x : ℚ) : RunningMoments :=
  let n1 : ℚ := (s.n : ℚ)
  let n : ℕ := s.n + 1
  let delta := x - s.mean
  let delta_n := delta / (n : ℚ)
  let delta_n2 := delta_n * delta_n
  let term1 := delta * delta_n * n1
  ⟨n, s.mean + delta_n,
    s.M2 + term1,
    s.M3 + term1 * delta_n * ((n : ℚ) - 2) - 3 * delta_n * s.M2,
    s.M4 + term1 * delta_n2 * ((n : ℚ) * (n : ℚ) - 3 * (n : ℚ) + 3)
      + 6 * delta_n2 * s.M2 - 4 * delta_n * s.M3⟩

/-- `RunningMoments.get_mean`. -/
def RunningMoments.get_mean (s : RunningMoments) : ℚ :=
  if s.n ≠ 0 then s.mean else 0

/-- `RunningMoments.get_variance`: `M2 / (n - 1)` for `n > 1`, else 0. -/
def RunningMoments.get_variance (s : RunningMoments) : Option ℚ :=
  if 1 < s.n then pydiv s.M2 ((s.n : ℚ) - 1) else some 0

/-- `RunningMoments.get_skewness`: 0 for `n < 3`, otherwise
`sqrt(n) * M3 / M2 ** 1.5` — the division raises when `M2 ** 1.5 = 0`. -/
noncomputable def RunningMoments.get_skewness (s : RunningMoments) : Option ℝ :=
  if s.n < 3 then some 0
  else pydivR (Real.sqrt (s.n : ℝ) * (s.M3 : ℝ)) (((s.M2 : ℝ)) ^ ((1.5 : ℝ)))

/-- `RunningMoments.get_kurtosis`: 0 for `n < 4`, otherwise
`n * M4 / (M2 * M2) - 3` — the division raises when `M2 = 0`. -/
def RunningMoments.get_kurtosis (s : RunningMoments) : Option ℚ :=
  if s.n < 4 then some 0
  else (pydiv ((s.n : ℚ) * s.M4) (s.M2 * s.M2)).map (fun q => q - 3)

/-- The state after feeding the constant sequence [5, 5, 5, 5]. -/
def constFourFives : RunningMoments :=
  ([5, 5, 5, 5] : List ℚ).foldl RunningMoments.update RunningMoments.init

theorem constFourFives_eq : constFourFives = ⟨4, 5, 0, 0, 0⟩ := by
  norm_num [constFourFives, RunningMoments.init, RunningMoments.update,
    List.foldl, RunningMoments.mk.injEq]

/-- C4 (code bug): after the constant sequence [5, 5, 5, 5] the state is
n = 4, mean = 5, M2 = M3 = M4 = 0, so `get_variance()` returns 0 as the
claim states, but `get_skewness()` and `get_kurtosis()` both raise
`ZeroDivisionError` (0.0 ** 1.5 = 0.0 and M2 * M2 = 0.0 divisors)
instead of returning 0. -/
theorem moments_const_sequence_divzero :
    constFourFives.get_variance = some 0 ∧
    constFourFives.get_skewness = none ∧
    constFourFives.get_kurtosis = none := by
  rw [constFourFives_eq]
  refine ⟨?_, ?_, ?_⟩
  · norm_num [RunningMoments.get_variance, pydiv]
  · have h15 : ((1.5 : ℝ)) ≠ 0 := by norm_num
    norm_num [RunningMoments.get_skewness, pydivR, Real.zero_rpow h15]
  · norm_num [RunningMoments.get_kurtosis, pydiv]

/-! ### AMS F2 sketch (src/ams_f2.py) -/

/-- State of `AMSF2`: `k` signed accumulators, kept as a total function
whose entries at indices `≥ k` are never touched.  The sha256-derived
`_sign` is abstracted as `sign : item → seed index → ℤ`. -/
structure AMSF2 where
  k : ℕ
  Z : ℕ → ℤ

/-- `AMSF2.__init__`: stores `k` and zeroed accumulators; it performs no
validation, so construction always succeeds. -/
def AMSF2.init (k : ℕ) : Except String AMSF2 :=
  .ok ⟨k, fun _ => 0⟩

/-- `AMSF2.update`: add `sign(item, seed_i) * value` to each of the `k`
accumulators. -/
def AMSF2.update (sign : ℕ → ℕ → ℤ) (s : AMSF2) (item : ℕ) (value : ℤ) : AMSF2 :=
  ⟨s.k, fun i => if i < s.k then s.Z i + sign item i * value else s.Z i⟩

/-- `AMSF2.estimate_F2`: mean of the squared accumulators;
`sum(vals) / len(vals)` raises `ZeroDivisionError` when `k = 0`. -/
def AMSF2.estimate_F2 (s : AMSF2) : Option ℚ :=
  pydiv (((List.range s.k).map (fun i => ((s.Z i * s.Z i : ℤ) : ℚ))).sum) (s.k : ℚ)

/-! ### Online Markov model (src/markov_module.py) -/

/-- State of `OnlineMarkovModel`: the ordered state list, the smoothing
constant and the count matrix (total function, entries outside the
`n × n` grid never touched).  State labels are modelled as `ℕ`.  The
cached transition matrix is omitted: it is recomputed from `counts`
whenever `counts` changed, so it is observationally the uncached value. -/
structure Markov where
  states : List ℕ
  smoothing : ℚ
  counts : ℕ → ℕ → ℚ

/-- `OnlineMarkovModel.__init__`: stores the state list, a zero count
matrix and the smoothing constant; it performs no validation, so
construction always succeeds (also for an empty state list). -/
def Markov.init (states : List ℕ) (smoothing : ℚ) : Except String Markov :=
  .ok ⟨states, smoothing, fun _ _ => 0⟩

/-- C5 (counterexample): constructing core components with invalid
configuration succeeds: `CountMinSketch(width=0)`, `AMSF2(k=0)` and
`OnlineMarkovModel(states=[])` all return normally from `__init__`,
so invalid configuration does not fail at construction time. -/
theorem constructors_accept_invalid_config :
    (CMS.init 0 5).isOk = true ∧ (AMSF2.init 0).isOk = true ∧
    (Markov.init [] (1 / 1000)).isOk = true :=
  ⟨rfl, rfl, rfl⟩

/-- C5 (amended): none of the core constructors validates its
configuration — construction succeeds for every width, depth, k and state
list, including zero and empty ones — and an invalid configuration
instead fails later, at update or query time: with `k = 0`,
`estimate_F2` raises `ZeroDivisionError`, and with `width = 0` and
positive depth, `CountMinSketch.add` raises `ZeroDivisionError` at its
first hashed row. -/
theorem constructors_never_fail (rawHash : ℕ → ℕ → ℕ) (w d k : ℕ)
    (states : List ℕ) (sm : ℚ) (key : ℕ) (c : ℤ)
    (sa : AMSF2) (ha : AMSF2.init 0 = .ok sa)
    (sc : CMS) (hc : CMS.init 0 (d + 1) = .ok sc) :
    (CMS.init w d).isOk = true ∧ (AMSF2.init k).isOk = true ∧
    (Markov.init states sm).isOk = true ∧
    sa.estimate_F2 = none ∧ CMS.add rawHash sc key c = none := by
  have ha' : sa = ⟨0, fun _ => 0⟩ := by
    simpa [AMSF2.init, Except.ok.injEq] using ha.symm
  have hc' : sc = ⟨0, d + 1, fun _ _ => 0⟩ := by
    simpa [CMS.init, Except.ok.injEq] using hc.symm
  refine ⟨rfl, rfl, rfl, ?_, ?_⟩
  · rw [ha']
    simp [AMSF2.estimate_F2, pydiv]
  · rw [hc']
    simp [CMS.add]

/-- Witness for C5's amended theorem at concrete inputs. -/
theorem constructors_never_fail_witness :
    (AMSF2.init 0 = .ok ⟨0, fun _ => 0⟩ ∧
      CMS.init 0 6 = .ok ⟨0, 6, fun _ _ => 0⟩) ∧
    ((CMS.init 2000 5).isOk = true ∧ (AMSF2.init 10).isOk = true ∧
      (Markov.init [] (1 / 1000)).isOk = true ∧
      AMSF2.estimate_F2 ⟨0, fun _ => 0⟩ = none ∧
      CMS.add (fun i x => i + x) ⟨0, 6, fun _ _ => 0⟩ 3 1 = none) :=
  ⟨⟨rfl, rfl⟩,
    constructors_never_fail (fun i x => i + x) 2000 5 10 [] (1 / 1000) 3 1
      ⟨0, fun _ => 0⟩ rfl ⟨0, 6, fun _ _ => 0⟩ rfl⟩

/-- Number of states, `self.n = len(self.states)`. -/
def Markov.n (M : Markov) : ℕ := M.states.length

/-- The dict `self.idx = {s: i for i, s in enumerate(states)}`: index of
the last occurrence of a label (later dict assignments overwrite), `none`
for a label outside the list. -/
def lastIdx : List ℕ → ℕ → Option ℕ
  | [], _ => none
  | a :: rest, x =>
    match lastIdx rest x with
    | some j => some (j + 1)
    | none => if a = x then some 0 else none

/-- `observe_transition`: labels outside the state set are silently
ignored; otherwise `counts[i, j] += weight`. -/
def Markov.observe (M : Markov) (f t : ℕ) (w : ℚ) : Markov :=
  match lastIdx M.states f, lastIdx M.states t with
  | some i, some j =>
    ⟨M.states, M.smoothing, fun a b =>
      if a = i ∧ b = j then M.counts a b + w else M.counts a b⟩
  | _, _ => M

/-- A finite history of `observe_transition(from, to, weight)` calls. -/
def Markov.runObs (M : Markov) (obs : List (ℕ × ℕ × ℚ)) : Markov :=
  obs.foldl (fun m o => m.observe o.1 o.2.1 o.2.2) M

/-- Row `i` sum of `C = counts + smoothing`. -/
def Markov.rowSumC (M : Markov) (i : ℕ) : ℚ :=
  Finset.sum (Finset.range M.n) (fun j => M.counts i j + M.smoothing)

/-- `transition_matrix()` entrywise: `C / row_sums` after replacing zero
row sums by 1 (`row_sums[row_sums==0] = 1.0`). -/
def Markov.P (M : Markov) (i j : ℕ) : ℚ :=
  (M.counts i j + M.smoothing) / (if M.rowSumC i = 0 then 1 else M.rowSumC i)

theorem observe_states (M : Markov) (f t : ℕ) (w : ℚ) :
    (M.observe f t w).states = M.states ∧
    (M.observe f t w).smoothing = M.smoothing := by
  cases h1 : lastIdx M.states f <;> cases h2 : lastIdx M.states t <;>
    simp [Markov.observe, h1, h2]

theorem observe_counts_nonneg (M : Markov) (f t : ℕ) (w : ℚ) (hw : 0 ≤ w)
    (hc : ∀ a b, 0 ≤ M.counts a b) :
    ∀ a b, 0 ≤ (M.observe f t w).counts a b := by
  intro a b
  unfold Markov.observe
  cases lastIdx M.states f with
  | none => exact hc a b
  | some i =>
    cases lastIdx M.states t with
    | none => exact hc a b
    | some j =>
      simp only
      by_cases hab : a = i ∧ b = j
      · rw [if_pos hab]
        have := hc a b
        linarith
      · rw [if_neg hab]
        exact hc a b

theorem runObs_invariant (obs : List (ℕ × ℕ × ℚ)) :
    ∀ (M : Markov), (∀ o ∈ obs, 0 ≤ o.2.2) → (∀ a b, 0 ≤ M.counts a b) →
      (M.runObs obs).states = M.states ∧
      (M.runObs obs).smoothing = M.smoothing ∧
      (∀ a b, 0 ≤ (M.runObs obs).counts a b) := by
  induction obs with
  | nil => intro M _ hc; exact ⟨rfl, rfl, hc⟩
  | cons o rest ih =>
    intro M hw hc
    have hw0 : 0 ≤ o.2.2 := hw o (by simp)
    have hstep := observe_states M o.1 o.2.1 o.2.2
    have hcnt := observe_counts_nonneg M o.1 o.2.1 o.2.2 hw0 hc
    have hrest := ih (M.observe o.1 o.2.1 o.2.2)
      (fun q hq => hw q (List.mem_cons_of_mem _ hq)) hcnt
    refine ⟨?_, ?_, hrest.2.2⟩
    · rw [show M.runObs (o :: rest) = (M.observe o.1 o.2.1 o.2.2).runObs rest from rfl,
        hrest.1, hstep.1]
    · rw [show M.runObs (o :: rest) = (M.observe o.1 o.2.1 o.2.2).runObs rest from rfl,
        hrest.2.1, hstep.2]

theorem markov_row_sum_one_of (M : Markov) (hc : ∀ a b, 0 ≤ M.counts a b)
    (hs : 0 < M.smoothing) (i : ℕ) (hi : i < M.n) :
    Finset.sum (Finset.range M.n) (fun j => M.P i j) = 1 := by
  have hpos : 0 < M.rowSumC i := by
    refine Finset.sum_pos (fun j _ => ?_) ⟨i, Finset.mem_range.mpr hi⟩
    have := hc i j
    linarith
  have hne : M.rowSumC i ≠ 0 := ne_of_gt hpos
  simp only [Markov.P, if_neg hne]
  rw [← Finset.sum_div]
  exact div_self hne

/-- C6: with smoothing > 0 and after any finite history of
`observe_transition` calls with non-negative weights, every row of the
transition matrix sums to 1, including rows of states with no observed
outgoing transition. -/
theorem markov_rows_sum_to_one (states : List ℕ) (sm : ℚ)
    (obs : List (ℕ × ℕ × ℚ)) (hs : 0 < sm) (hw : ∀ o ∈ obs, 0 ≤ o.2.2) :
    ∀ i < (Markov.runObs ⟨states, sm, fun _ _ => 0⟩ obs).n,
      Finset.sum (Finset.range (Markov.runObs ⟨states, sm, fun _ _ => 0⟩ obs).n)
        (fun j => (Markov.runObs ⟨states, sm, fun _ _ => 0⟩ obs).P i j) = 1 := by
  intro i hi
  obtain ⟨-, hsm, hcnt⟩ :=
    runObs_invariant obs ⟨states, sm, fun _ _ => 0⟩ hw (fun a b => le_refl 0)
  refine markov_row_sum_one_of _ hcnt ?_ i hi
  rw [hsm]
  exact hs

/-- Witness for C6: states [0, 1], smoothing 1, one observation
(0 → 1, weight 2), row 0. -/
theorem markov_rows_sum_to_one_witness :
    ((0 : ℚ) < 1 ∧ ∀ o ∈ [((0 : ℕ), (1 : ℕ), (2 : ℚ))], 0 ≤ o.2.2) ∧
    ∀ i < (Markov.runObs ⟨[0, 1], 1, fun _ _ => 0⟩ [(0, 1, 2)]).n,
      Finset.sum (Finset.range (Markov.runObs ⟨[0, 1], 1, fun _ _ => 0⟩ [(0, 1, 2)]).n)
        (fun j => (Markov.runObs ⟨[0, 1], 1, fun _ _ => 0⟩ [(0, 1, 2)]).P i j) = 1 :=
  ⟨⟨by norm_num, by norm_num⟩,
    markov_rows_sum_to_one [0, 1] 1 [(0, 1, 2)] (by norm_num) (by norm_num)⟩

/-- One step of `v = v.dot(P)` in `predict_distribution`. -/
def Markov.vecStep (M : Markov) (v : ℕ → ℚ) : ℕ → ℚ :=
  fun j => Finset.sum (Finset.range M.n) (fun i => v i * M.P i j)

/-- `predict_distribution(current_state, steps)`: `None` for a state
outside the configured set; otherwise advance the one-hot vector `steps`
times and read it out as (state label, probability) pairs. -/
def Markov.predict (M : Markov) (cur : ℕ) (steps : ℕ) : Option (List (ℕ × ℚ)) :=
  match lastIdx M.states cur with
  | none => none
  | some i0 =>
    some ((List.range M.n).map (fun i =>
      (M.states.getD i 0, (M.vecStep^[steps] (fun a => if a = i0 then 1 else 0)) i)))

theorem lastIdx_eq_none {l : List ℕ} {x : ℕ} (hx : x ∉ l) :
    lastIdx l x = none := by
  induction l with
  | nil => rfl
  | cons a rest ih =>
    have hxa : ¬ a = x := fun h => hx (h ▸ List.mem_cons_self a rest)
    have hxr : x ∉ rest := fun h => hx (List.mem_cons_of_mem a h)
    simp [lastIdx, ih hxr, hxa]

/-- C7: a label outside the configured state set makes
`observe_transition` a silent no-op (the model, counts included, is
returned unchanged, whichever side the unknown label is on), while
`predict_distribution` on an unknown state returns `None`. -/
theorem markov_unknown_label (M : Markov) (x f t : ℕ) (w : ℚ) (steps : ℕ)
    (hx : x ∉ M.states) :
    M.observe x t w = M ∧ M.observe f x w = M ∧ M.predict x steps = none := by
  have hnone := lastIdx_eq_none hx
  refine ⟨?_, ?_, ?_⟩
  · unfold Markov.observe
    rw [hnone]
  · unfold Markov.observe
    rw [hnone]
    cases lastIdx M.states f <;> rfl
  · unfold Markov.predict
    rw [hnone]

/-- Witness for C7: the two-state model with states [0, 1] and the
unknown label 7. -/
theorem markov_unknown_label_witness :
    (7 ∉ ([0, 1] : List ℕ)) ∧
    ((⟨[0, 1], 1, fun _ _ => 0⟩ : Markov).observe 7 0 1 = ⟨[0, 1], 1, fun _ _ => 0⟩ ∧
      (⟨[0, 1], 1, fun _ _ => 0⟩ : Markov).observe 0 7 1 = ⟨[0, 1], 1, fun _ _ => 0⟩ ∧
      (⟨[0, 1], 1, fun _ _ => 0⟩ : Markov).predict 7 1 = none) :=
  ⟨by decide, markov_unknown_label ⟨[0, 1], 1, fun _ _ => 0⟩ 7 0 0 1 1 (by decide)⟩

/-- The boolean support matrix `A = (P > 1e-12)` used by
`is_aperiodic`'s weak test. -/
def Markov.support (M : Markov) : ℕ → ℕ → Bool :=
  fun i j => decide (1 / 10 ^ 12 < M.P i j)

/-- Boolean matrix product with thresholding, `(M.dot(A) > 0)`. -/
def bmul (n : ℕ) (X A : ℕ → ℕ → Bool) : ℕ → ℕ → Bool :=
  fun i j => (List.range n).any (fun k => X i k && A k j)

/-- `is_aperiodic`'s power loop: up to `max_power = 10` rounds, return
true as soon as the whole diagonal of the reachability power is positive,
else multiply by `A` again; `False` when the bound is exhausted. -/
def weakLoop (n : ℕ) (A : ℕ → ℕ → Bool) : ℕ → (ℕ → ℕ → Bool) → Bool
  | 0, _ => false
  | fuel + 1, X =>
    if (List.range n).all (fun i => X i i) then true
    else weakLoop n A fuel (bmul n X A)

/-- `is_aperiodic()`: true immediately when some diagonal entry of the
smoothed transition matrix exceeds 1e-12, else the bounded weak test. -/
def Markov.isAperiodic (M : Markov) : Bool :=
  if (List.range M.n).any (fun i => decide (1 / 10 ^ 12 < M.P i i)) then true
  else weakLoop M.n M.support 10 M.support

/-- C10: with smoothing > 0 and any observation history with
non-negative weights, whenever some state's smoothed diagonal entry
`(counts[i][i] + smoothing) / (row-i count total + n * smoothing)`
exceeds 1e-12, `is_aperiodic()` returns true — no observed
self-transition is needed, because the test runs on the smoothed matrix
rather than the raw counts. -/
theorem markov_aperiodic_from_smoothing (states : List ℕ) (sm : ℚ)
    (obs : List (ℕ × ℕ × ℚ)) (i : ℕ) (hs : 0 < sm)
    (hw : ∀ o ∈ obs, 0 ≤ o.2.2)
    (hi : i < (Markov.runObs ⟨states, sm, fun _ _ => 0⟩ obs).n)
    (hq : 1 / 10 ^ 12 <
      ((Markov.runObs ⟨states, sm, fun _ _ => 0⟩ obs).counts i i + sm) /
        (Finset.sum (Finset.range (Markov.runObs ⟨states, sm, fun _ _ => 0⟩ obs).n)
          (fun j => (Markov.runObs ⟨states, sm, fun _ _ => 0⟩ obs).counts i j) +
          (Markov.runObs ⟨states, sm, fun _ _ => 0⟩ obs).n * sm)) :
    (Markov.runObs ⟨states, sm, fun _ _ => 0⟩ obs).isAperiodic = true := by
  set M := Markov.runObs ⟨states, sm, fun _ _ => 0⟩ obs with hM
  obtain ⟨-, hsm, hcnt⟩ :=
    runObs_invariant obs ⟨states, sm, fun _ _ => 0⟩ hw (fun a b => le_refl 0)
  rw [← hM] at hsm hcnt
  have hrow : M.rowSumC i =
      Finset.sum (Finset.range M.n) (fun j => M.counts i j) + M.n * sm := by
    rw [Markov.rowSumC, Finset.sum_add_distrib, Finset.sum_const,
      Finset.card_range, hsm, nsmul_eq_mul]
  have hpos : 0 < M.rowSumC i := by
    refine Finset.sum_pos (fun j _ => ?_) ⟨i, Finset.mem_range.mpr hi⟩
    have h1 := hcnt i j
    have h2 : 0 < M.smoothing := by rw [hsm]; exact hs
    linarith
  have hne : M.rowSumC i ≠ 0 := ne_of_gt hpos
  have hPii : 1 / 10 ^ 12 < M.P i i := by
    rw [Markov.P, if_neg hne, hrow, hsm]
    exact hq
  have hany : (List.range M.n).any (fun a => decide (1 / 10 ^ 12 < M.P a a)) = true := by
    rw [List.any_eq_true]
    exact ⟨i, List.mem_range.mpr hi, by simpa using hPii⟩
  rw [Markov.isAperiodic, if_pos hany]

/-- Witness for C10: states [0, 1], smoothing 1/1000, empty history (so
no self-transition was ever observed); the smoothed diagonal entry is
(0 + 1/1000) / (0 + 2/1000) = 1/2 > 1e-12. -/
theorem markov_aperiodic_from_smoothing_witness :
    ((0 : ℚ) < 1 / 1000 ∧
      (0 : ℕ) < (Markov.runObs ⟨[0, 1], 1 / 1000, fun _ _ => 0⟩ []).n ∧
      1 / 10 ^ 12 <
        ((Markov.runObs ⟨[0, 1], 1 / 1000, fun _ _ => 0⟩ []).counts 0 0 + 1 / 1000) /
          (Finset.sum (Finset.range (Markov.runObs ⟨[0, 1], 1 / 1000, fun _ _ => 0⟩ []).n)
            (fun j => (Markov.runObs ⟨[0, 1], 1 / 1000, fun _ _ => 0⟩ []).counts 0 j) +
            (Markov.runObs ⟨[0, 1], 1 / 1000, fun _ _ => 0⟩ []).n * (1 / 1000))) ∧
    (Markov.runObs ⟨[0, 1], 1 / 1000, fun _ _ => 0⟩ []).isAperiodic = true :=
  ⟨⟨by norm_num,
    by norm_num [Markov.runObs, Markov.n],
    by norm_num [Markov.runObs, Markov.n, Finset.sum_range_succ]⟩,
    markov_aperiodic_from_smoothing [0, 1] (1 / 1000) [] 0 (by norm_num)
      (by norm_num)
      (by norm_num [Markov.runObs, Markov.n])
      (by norm_num [Markov.runObs, Markov.n, Finset.sum_range_succ])⟩

/-! ### Membership filter (src/bloom_filter_module.py)

The module wraps `pybloom_live.BloomFilter`, an external package whose
code is not in this repository; only `bf.add` and `in bf` are called. -/

/-- Modelled from the spec: the `BloomFilter` class of the external
`pybloom_live` package (absent from this repository) is a fixed-size bit
array with a fixed number `k` of seeded hash positions per key; `add`
sets a key's `k` bits and membership tests them all.  The hash family is
abstracted as `h : seed index → key → ℕ`, taken modulo the bit-array
size. -/
structure Bloom where
  m : ℕ
  k : ℕ
  bits : ℕ → Bool

/-- A fresh filter with all bits clear. -/
def Bloom.init (m k : ℕ) : Bloom := ⟨m, k, fun _ => false⟩

/-- `mark_play_analyzed`: insert the key, setting its `k` bit positions. -/
def mark_play_analyzed (h : ℕ → ℕ → ℕ) (bf : Bloom) (key : ℕ) : Bloom :=
  ⟨bf.m, bf.k, fun b =>
    bf.bits b || decide (∃ i ∈ Finset.range bf.k, h i key % bf.m = b)⟩

/-- `check_play_analyzed`: membership test — all `k` bit positions of the
key are set. -/
def check_play_analyzed (h : ℕ → ℕ → ℕ) (bf : Bloom) (key : ℕ) : Bool :=
  decide (∀ i ∈ Finset.range bf.k, bf.bits (h i key % bf.m) = true)

theorem mark_fold_dims (h : ℕ → ℕ → ℕ) :
    ∀ (keys : List ℕ) (bf : Bloom),
      (keys.foldl (mark_play_analyzed h) bf).m = bf.m ∧
      (keys.foldl (mark_play_analyzed h) bf).k = bf.k := by
  intro keys
  induction keys with
  | nil => exact fun bf => ⟨rfl, rfl⟩
  | cons x rest ih =>
    intro bf
    exact ih (mark_play_analyzed h bf x)

theorem mark_preserves_bits (h : ℕ → ℕ → ℕ) :
    ∀ (keys : List ℕ) (bf : Bloom) (b : ℕ), bf.bits b = true →
      (keys.foldl (mark_play_analyzed h) bf).bits b = true := by
  intro keys
  induction keys with
  | nil => exact fun bf b hb => hb
  | cons x rest ih =>
    intro bf b hb
    have hb' : (mark_play_analyzed h bf x).bits b = true := by
      simp [mark_play_analyzed, hb]
    exact ih (mark_play_analyzed h bf x) b hb'

/-- C9: every key passed to the filter's insert operation
(`mark_play_analyzed`) is afterwards reported present by the membership
test (`check_play_analyzed`): the filter has no false negatives. -/
theorem bloom_no_false_negatives (h : ℕ → ℕ → ℕ) (m k : ℕ)
    (keys : List ℕ) (key : ℕ) (hkey : key ∈ keys) :
    check_play_analyzed h (keys.foldl (mark_play_analyzed h) (Bloom.init m k)) key = true := by
  suffices hgen : ∀ (keys : List ℕ) (bf : Bloom), key ∈ keys →
      check_play_analyzed h (keys.foldl (mark_play_analyzed h) bf) key = true from
    hgen keys (Bloom.init m k) hkey
  intro keys
  induction keys with
  | nil => intro bf hmem; exact absurd hmem (List.not_mem_nil key)
  | cons x rest ih =>
    intro bf hmem
    rcases List.mem_cons.mp hmem with hx | hx
    · subst hx
      simp only [List.foldl_cons]
      obtain ⟨hm, hk⟩ := mark_fold_dims h rest (mark_play_analyzed h bf key)
      rw [check_play_analyzed, decide_eq_true_eq]
      intro i hi
      rw [show (mark_play_analyzed h bf key).m = bf.m from rfl] at hm
      rw [show (mark_play_analyzed h bf key).k = bf.k from rfl] at hk
      rw [hm]
      have hik : i ∈ Finset.range bf.k := by rwa [hk] at hi
      have hset : (mark_play_analyzed h bf key).bits (h i key % bf.m) = true := by
        simp only [mark_play_analyzed, Bool.or_eq_true, decide_eq_true_eq]
        exact Or.inr ⟨i, hik, rfl⟩
      exact mark_preserves_bits h rest (mark_play_analyzed h bf key)
        (h i key % bf.m) hset
    · simp only [List.foldl_cons]
      exact ih (mark_play_analyzed h bf x) hx

/-- Witness for C9: bit array of size 8, k = 2 hashes `h i x = x + i`,
keys 3 and 5 inserted, key 3 tested. -/
theorem bloom_no_false_negatives_witness :
    (3 ∈ [3, 5]) ∧
    check_play_analyzed (fun i x => x + i)
      (([3, 5] : List ℕ).foldl (mark_play_analyzed (fun i x => x + i))
        (Bloom.init 8 2)) 3 = true :=
  ⟨by decide, bloom_no_false_negatives (fun i x => x + i) 8 2 [3, 5] 3 (by decide)⟩

/-! ### Min-wise sampler (src/minwise_sampler.py)

The Python heap stores `(-hash, item)` tuples and is observed only
through `heap[0]`, `heapreplace` (pop the tuple-minimum, push) and
`sample`, so the state is modelled as the list of `(hash, item)` entries
with the popped element — the tuple-lexicographic minimum of
`(-hash, item)`, i.e. largest hash, ties towards the smaller item —
computed explicitly.  Items are `ℕ` (standing for strings with their
order) and sha256 is abstracted as the function `h`. -/

/-- State of `MinWiseSampler`. -/
structure MWS where
  k : ℕ
  heap : List (ℕ × ℕ)

/-- `MinWiseSampler.__init__`. -/
def MWS.init (k : ℕ) : MWS := ⟨k, []⟩

/-- Does entry `u` come before entry `t` in the `(-hash, item)` heap
order (i.e. would `heapq` pop `u` first)? -/
def popsBefore (u t : ℕ × ℕ) : Bool :=
  t.1 < u.1 || (u.1 = t.1 && u.2 < t.2)

/-- `self.heap[0]`: the entry `heapq` keeps at the root, the
`(-hash, item)`-minimum. -/
def heapTop : List (ℕ × ℕ) → Option (ℕ × ℕ)
  | [] => none
  | a :: rest => some (rest.foldl (fun t u => if popsBefore u t then u else t) a)

/-- `MinWiseSampler.consider`: push while the heap holds fewer than `k`
entries; otherwise `heapreplace` the root exactly when the new hash is
strictly smaller than the current maximum hash.  With `k = 0` the
`self.heap[0]` access raises `IndexError` (`none`). -/
def MWS.consider (h : ℕ → ℕ) (s : MWS) (x : ℕ) : Option MWS :=
  if s.heap.length < s.k then some ⟨s.k, (h x, x) :: s.heap⟩
  else
    match heapTop s.heap with
    | none => none
    | some t => if h x < t.1 then some ⟨s.k, (h x, x) :: s.heap.erase t⟩ else some s

/-- A finite stream of `consider` calls, left to right. -/
def MWS.runConsider (h : ℕ → ℕ) (s : MWS) : List ℕ → Option MWS
  | [] => some s
  | x :: rest =>
    match MWS.consider h s x with
    | none => none
    | some s' => MWS.runConsider h s' rest

/-- `MinWiseSampler.sample`: the retained items. -/
def MWS.sample (s : MWS) : List ℕ := s.heap.map Prod.snd

theorem foldl_pick_mem :
    ∀ (l : List (ℕ × ℕ)) (a : ℕ × ℕ),
      l.foldl (fun t u => if popsBefore u t then u else t) a = a ∨
      l.foldl (fun t u => if popsBefore u t then u else t) a ∈ l := by
  intro l
  induction l with
  | nil => exact fun a => Or.inl rfl
  | cons b rest ih =>
    intro a
    rcases ih (if popsBefore b a then b else a) with hcase | hcase
    · rw [List.foldl_cons, hcase]
      by_cases hb : popsBefore b a
      · rw [if_pos hb]; exact Or.inr (by simp)
      · rw [if_neg hb]; exact Or.inl rfl
    · rw [List.foldl_cons]
      exact Or.inr (List.mem_cons_of_mem _ hcase)

theorem foldl_pick_ge :
    ∀ (l : List (ℕ × ℕ)) (a u : ℕ × ℕ), (u = a ∨ u ∈ l) →
      u.1 ≤ (l.foldl (fun t u => if popsBefore u t then u else t) a).1 := by
  intro l
  induction l with
  | nil =>
    intro a u hu
    rcases hu with hu | hu
    · subst hu; exact le_refl _
    · exact absurd hu (List.not_mem_nil u)
  | cons b rest ih =>
    intro a u hu
    have hstep : a.1 ≤ (if popsBefore b a then b else a).1 ∧
        b.1 ≤ (if popsBefore b a then b else a).1 := by
      by_cases hb : popsBefore b a
      · rw [if_pos hb]
        refine ⟨?_, le_refl _⟩
        rcases Bool.or_eq_true_iff.mp hb with hlt | heq
        · exact le_of_lt (by simpa using hlt)
        · have := (Bool.and_eq_true _ _).mp heq
          have h1 : b.1 = a.1 := by simpa using this.1
          omega
      · rw [if_neg hb]
        refine ⟨le_refl _, ?_⟩
        rw [popsBefore, Bool.or_eq_true_iff] at hb
        push_neg at hb
        have h1 : ¬ a.1 < b.1 := by
          intro hcon
          exact hb.1 (by simpa using hcon)
        omega
    rw [List.foldl_cons]
    rcases hu with hu | hu
    · subst hu
      exact le_trans hstep.1 (ih _ _ (Or.inl rfl))
    · rcases List.mem_cons.mp hu with hu | hu
      · subst hu
        exact le_trans hstep.2 (ih _ _ (Or.inl rfl))
      · exact ih _ _ (Or.inr hu)

theorem heapTop_mem {l : List (ℕ × ℕ)} {t : ℕ × ℕ} (ht : heapTop l = some t) :
    t ∈ l := by
  cases l with
  | nil => exact absurd ht (by simp [heapTop])
  | cons a rest =>
    have := Option.some.inj ht
    rcases foldl_pick_mem rest a with hc | hc
    · rw [← this, hc]; simp
    · rw [← this]; exact List.mem_cons_of_mem _ hc

theorem heapTop_ge {l : List (ℕ × ℕ)} {t : ℕ × ℕ} (ht : heapTop l = some t) :
    ∀ u ∈ l, u.1 ≤ t.1 := by
  cases l with
  | nil => exact fun u hu => absurd hu (List.not_mem_nil u)
  | cons a rest =>
    intro u hu
    have := Option.some.inj ht
    rw [← this]
    rcases List.mem_cons.mp hu with hu | hu
    · exact foldl_pick_ge rest a u (Or.inl hu)
    · exact foldl_pick_ge rest a u (Or.inr hu)

theorem heapTop_of_ne_nil {l : List (ℕ × ℕ)} (hl : l ≠ []) :
    ∃ t, heapTop l = some t := by
  cases l with
  | nil => exact absurd rfl hl
  | cons a rest => exact ⟨_, rfl⟩

/-- Invariant tying the sampler state to the processed prefix `seen`:
stored hashes are genuine, retained items are distinct elements of
`seen`, the heap is as full as `seen` and `k` allow, and every retained
item hashes strictly below every seen-but-dropped item. -/
def MWSInv (h : ℕ → ℕ) (k : ℕ) (seen : List ℕ) (s : MWS) : Prop :=
  s.k = k ∧
  (∀ p ∈ s.heap, p.1 = h p.2) ∧
  (s.heap.map Prod.snd).Nodup ∧
  (∀ p ∈ s.heap, p.2 ∈ seen) ∧
  s.heap.length = min seen.length k ∧
  (∀ p ∈ s.heap, ∀ b ∈ seen, b ∉ s.heap.map Prod.snd → h p.2 < h b)

theorem consider_step (h : ℕ → ℕ) (k : ℕ) (hk : 0 < k) (seen : List ℕ)
    (s : MWS) (x : ℕ) (hxseen : x ∉ seen)
    (hsx : ∀ a ∈ seen, h a ≠ h x)
    (hspw : seen.Pairwise (fun a b => h a ≠ h b))
    (hinv : MWSInv h k seen s) :
    ∃ s₁, MWS.consider h s x = some s₁ ∧ MWSInv h k (seen ++ [x]) s₁ := by
  obtain ⟨hsk, hhash, hndh, hmem, hlen, hdom⟩ := hinv
  have hsymm : Symmetric (fun a b => h a ≠ h b) :=
    fun a b hab heq => hab heq.symm
  have hlseen : (seen ++ [x]).length = seen.length + 1 := by simp
  by_cases hfull : s.heap.length < s.k
  · -- push branch
    refine ⟨⟨s.k, (h x, x) :: s.heap⟩, by simp [MWS.consider, hfull], hsk, ?_, ?_, ?_, ?_, ?_⟩
    · intro p hp
      rcases List.mem_cons.mp hp with hp | hp
      · subst hp; rfl
      · exact hhash p hp
    · simp only [List.map_cons]
      refine List.nodup_cons.mpr ⟨?_, hndh⟩
      intro hxin
      obtain ⟨q, hq, hq2⟩ := List.mem_map.mp hxin
      exact hxseen (hq2 ▸ hmem q hq)
    · intro p hp
      rcases List.mem_cons.mp hp with hp | hp
      · subst hp
        simp
      · exact List.mem_append_left _ (hmem p hp)
    · simp only [List.length_cons, hlseen]
      rw [hsk] at hfull
      omega
    · intro p hp b hb hbnot
      simp only [List.map_cons, List.mem_cons] at hbnot
      push_neg at hbnot
      have hbx : b ≠ x := hbnot.1
      have hbheap : b ∉ s.heap.map Prod.snd := hbnot.2
      have hbseen : b ∈ seen := by
        rcases List.mem_append.mp hb with hb | hb
        · exact hb
        · exact absurd (List.mem_singleton.mp hb) hbx
      -- with room to spare the heap holds every seen item, so b cannot
      -- be both seen and dropped
      exfalso
      have hsub : s.heap.map Prod.snd ⊆ seen.erase b := by
        intro a ha
        obtain ⟨q, hq, hq2⟩ := List.mem_map.mp ha
        have haa : a ∈ seen := hq2 ▸ hmem q hq
        have hab : a ≠ b := by
          intro hcon
          exact hbheap (hcon ▸ ha)
        exact (List.mem_erase_of_ne hab).mpr haa
      have hle := (List.subperm_of_subset hndh hsub).length_le
      have herase : (seen.erase b).length = seen.length - 1 :=
        List.length_erase_of_mem hbseen
      have hml : (s.heap.map Prod.snd).length = s.heap.length := List.length_map _ _
      have hbpos : 0 < seen.length := List.length_pos_of_mem hbseen
      rw [hsk] at hfull
      omega
  · push_neg at hfull
    have hkseen : s.heap.length = k ∧ k ≤ seen.length := by
      rw [hsk] at hfull
      omega
    have hnenil : s.heap ≠ [] := by
      intro hcon
      rw [hcon] at hkseen
      simp only [List.length_nil] at hkseen
      omega
    obtain ⟨t, ht⟩ := heapTop_of_ne_nil hnenil
    have htmem : t ∈ s.heap := heapTop_mem ht
    have htge : ∀ u ∈ s.heap, u.1 ≤ t.1 := heapTop_ge ht
    have hthash : t.1 = h t.2 := hhash t htmem
    have htseen : t.2 ∈ seen := hmem t htmem
    have hfull' : ¬ s.heap.length < s.k := by omega
    by_cases hrepl : h x < t.1
    · -- replace branch
      refine ⟨⟨s.k, (h x, x) :: s.heap.erase t⟩,
        by simp [MWS.consider, hfull', ht, hrepl], hsk, ?_, ?_, ?_, ?_, ?_⟩
      · intro p hp
        rcases List.mem_cons.mp hp with hp | hp
        · subst hp; rfl
        · exact hhash p (List.erase_subset _ _ hp)
      · simp only [List.map_cons]
        refine List.nodup_cons.mpr ⟨?_, ?_⟩
        · intro hxin
          obtain ⟨q, hq, hq2⟩ := List.mem_map.mp hxin
          exact hxseen (hq2 ▸ hmem q (List.erase_subset _ _ hq))
        · exact hndh.sublist ((List.erase_sublist t s.heap).map Prod.snd)
      · intro p hp
        rcases List.mem_cons.mp hp with hp | hp
        · subst hp; simp
        · exact List.mem_append_left _ (hmem p (List.erase_subset _ _ hp))
      · simp only [List.length_cons, List.length_erase_of_mem htmem, hlseen]
        omega
      · intro p hp b hb hbnot
        simp only [List.map_cons, List.mem_cons] at hbnot
        push_neg at hbnot
        obtain ⟨hbx, hberase⟩ := hbnot
        have hbseen : b ∈ seen := by
          rcases List.mem_append.mp hb with hb | hb
          · exact hb
          · exact absurd (List.mem_singleton.mp hb) hbx
        have hbold : b ≠ t.2 → b ∉ s.heap.map Prod.snd := by
          intro hbt hbin
          obtain ⟨q, hq, hq2⟩ := List.mem_map.mp hbin
          have hqt : q ≠ t := by
            intro hcon
            exact hbt (by rw [← hq2, hcon])
          exact hberase (List.mem_map.mpr ⟨q, (List.mem_erase_of_ne hqt).mpr hq, hq2⟩)
        rcases List.mem_cons.mp hp with hp | hp
        · subst hp
          show h x < h b
          by_cases hbt : b = t.2
          · subst hbt
            rw [hthash] at hrepl
            exact hrepl
          · have hdt := hdom t htmem b hbseen (hbold hbt)
            rw [hthash] at hrepl
            exact lt_trans hrepl hdt
        · have hpheap : p ∈ s.heap := List.erase_subset _ _ hp
          by_cases hbt : b = t.2
          · subst hbt
            have hple : p.1 ≤ t.1 := htge p hpheap
            rw [hhash p hpheap, hthash] at hple
            have hpt : p.2 ≠ t.2 := by
              intro hcon
              exact hberase (List.mem_map.mpr ⟨p, hp, hcon⟩)
            have hne2 : h p.2 ≠ h t.2 :=
              hspw.forall hsymm (hmem p hpheap) htseen hpt
            exact lt_of_le_of_ne hple hne2
          · exact hdom p hpheap b hbseen (hbold hbt)
    · -- keep branch: ties and larger hashes leave the heap untouched
      refine ⟨s, by simp [MWS.consider, hfull', ht, hrepl], hsk, hhash, hndh, ?_, ?_, ?_⟩
      · intro p hp
        exact List.mem_append_left _ (hmem p hp)
      · rw [hlseen, hlen]
        omega
      · intro p hp b hb hbnot
        rcases List.mem_append.mp hb with hb | hb
        · exact hdom p hp b hb hbnot
        · have hbx : b = x := List.mem_singleton.mp hb
          rw [hbx]
          push_neg at hrepl
          rw [hthash] at hrepl
          have hple : p.1 ≤ t.1 := htge p hp
          rw [hhash p hp, hthash] at hple
          have hne2 : h p.2 ≠ h x := hsx p.2 (hmem p hp)
          omega

theorem runConsider_inv (h : ℕ → ℕ) (k : ℕ) (hk : 0 < k) :
    ∀ (rest seen : List ℕ) (s : MWS),
      ((seen ++ rest).Pairwise (fun a b => h a ≠ h b)) →
      MWSInv h k seen s →
      ∃ s', MWS.runConsider h s rest = some s' ∧ MWSInv h k (seen ++ rest) s' := by
  intro rest
  induction rest with
  | nil =>
    intro seen s _ hinv
    exact ⟨s, rfl, by simpa using hinv⟩
  | cons x rest ih =>
    intro seen s hpw hinv
    obtain ⟨hspw, hxr, hcross⟩ := List.pairwise_append.mp hpw
    have hxseen : x ∉ seen := fun hx => (hcross x hx x (by simp)) rfl
    have hsx : ∀ a ∈ seen, h a ≠ h x := fun a ha => hcross a ha x (by simp)
    obtain ⟨s₁, hcons, hinv₁⟩ := consider_step h k hk seen s x hxseen hsx hspw hinv
    have hpw' : ((seen ++ [x]) ++ rest).Pairwise (fun a b => h a ≠ h b) := by
      rwa [List.append_cons] at hpw
    obtain ⟨s', hrun, hinv'⟩ := ih (seen ++ [x]) s₁ hpw' hinv₁
    refine ⟨s', ?_, ?_⟩
    · simp [MWS.runConsider, hcons, hrun]
    · rwa [← List.append_cons] at hinv'

/-- C8: feeding `N > k` items with pairwise distinct (sha256) hashes into
a sampler with positive `k`, `sample()` holds exactly `k` distinct items,
all of them considered ones, and every retained item's hash is strictly
below every dropped item's hash — i.e. the sample is exactly the `k`
smallest-hash items; moreover a full sampler is left unchanged when the
incoming hash ties the current maximum (replacement only on strict
inequality). -/
theorem minwise_sample_is_k_smallest (h : ℕ → ℕ) (k : ℕ) (xs : List ℕ)
    (hk : 0 < k) (hpw : xs.Pairwise (fun a b => h a ≠ h b))
    (hlen : k < xs.length) :
    (∃ s, MWS.runConsider h (MWS.init k) xs = some s ∧
      (MWS.sample s).length = k ∧ (MWS.sample s).Nodup ∧
      (∀ a ∈ MWS.sample s, a ∈ xs) ∧
      (∀ a ∈ MWS.sample s, ∀ b ∈ xs, b ∉ MWS.sample s → h a < h b)) ∧
    (∀ (s : MWS) (t : ℕ × ℕ) (y : ℕ), ¬ s.heap.length < s.k →
      heapTop s.heap = some t → h y = t.1 → MWS.consider h s y = some s) := by
  constructor
  · have hinit : MWSInv h k [] (MWS.init k) := by
      refine ⟨rfl, ?_, ?_, ?_, ?_, ?_⟩ <;> simp [MWS.init]
    have hpw0 : (([] : List ℕ) ++ xs).Pairwise (fun a b => h a ≠ h b) := by
      simpa using hpw
    obtain ⟨s, hrun, hsk, hhash, hndh, hmem, hlenh, hdom⟩ :=
      runConsider_inv h k hk xs [] (MWS.init k) hpw0 hinit
    rw [List.nil_append] at hlenh hmem hdom
    refine ⟨s, hrun, ?_, hndh, ?_, ?_⟩
    · rw [MWS.sample, List.length_map, hlenh]
      omega
    · intro a ha
      obtain ⟨p, hp, hp2⟩ := List.mem_map.mp ha
      exact hp2 ▸ hmem p hp
    · intro a ha b hb hbnot
      obtain ⟨p, hp, hp2⟩ := List.mem_map.mp ha
      rw [← hp2]
      exact hdom p hp b hb hbnot
  · intro s t y hfull htop heq
    simp [MWS.consider, hfull, htop, heq]

/-- Witness for C8: identity hashes, k = 1, the stream [10, 20, 30]; the
retained sample is the single smallest-hash item. -/
theorem minwise_sample_is_k_smallest_witness :
    (0 < 1 ∧
      ([10, 20, 30] : List ℕ).Pairwise (fun a b => (fun y => y) a ≠ (fun y => y) b) ∧
      1 < ([10, 20, 30] : List ℕ).length) ∧
    ((∃ s, MWS.runConsider (fun y => y) (MWS.init 1) [10, 20, 30] = some s ∧
      (MWS.sample s).length = 1 ∧ (MWS.sample s).Nodup ∧
      (∀ a ∈ MWS.sample s, a ∈ [10, 20, 30]) ∧
      (∀ a ∈ MWS.sample s, ∀ b ∈ [10, 20, 30], b ∉ MWS.sample s →
        (fun y => y) a < (fun y => y) b)) ∧
    (∀ (s : MWS) (t : ℕ × ℕ) (y : ℕ), ¬ s.heap.length < s.k →
      heapTop s.heap = some t → (fun y => y) y = t.1 →
      MWS.consider (fun y => y) s y = some s)) :=
  ⟨⟨by decide, by decide, by decide⟩,
    minwise_sample_is_k_smallest (fun y => y) 1 [10, 20, 30]
      (by decide) (by decide) (by decide)⟩

end Spec2Proof
